import Mathlib

/-!
Verification of the interval store of pyConnectionMonitor (`main.py`).

The embedded code is the body of `MainWindow._refresh` (append a zero-width
sample, merge adjacent same-status segments within a 35 s gap, prune by the
retention cutoff) and the clipping loop of `MainWindow._safe_refresh`.
Timestamps are modelled as integers (seconds); the probe status is a boolean.
-/

namespace PyConnectionMonitor

/-- One entry of `check_data` / `data`: a dict `{'start': .., 'end': .., 'status': ..}`.
The field `end` of the Python dict is called `stop` here (`end` is reserved). -/
structure Interval where
  start : Int
  stop : Int
  status : Bool
deriving DecidableEq

/-- `MAX_GAP = timedelta(seconds=35)` from `_refresh`. -/
def MAX_GAP : Int := 35

/-- `max_history = 7 * 86400` from `_refresh`. -/
def max_history : Int := 7 * 86400

/-- `buffer_window = 300` from `_refresh`. -/
def buffer_window : Int := 300

/-- The merge loop of `_refresh`: `merged = [check_data[0]]; for seg in check_data[1:]: ...`.
`last` is the current tail segment `merged[-1]`; extending it with
`last['end'] = seg['end']` is modelled by the functional update. -/
def mergeLoop (last : Interval) : List Interval → List Interval
  | [] => [last]
  | seg :: rest =>
    if seg.status = last.status ∧ seg.start - last.stop ≤ MAX_GAP then
      mergeLoop { last with stop := seg.stop } rest
    else
      last :: mergeLoop seg rest

/-- The whole merge pass of `_refresh` over `check_data`. -/
def merge : List Interval → List Interval
  | [] => []
  | h :: rest => mergeLoop h rest

/-- The pruning filter of `_refresh`:
`self.data = [entry for entry in merged if entry['end'] > cutoff or
(entry['end'] - entry['start']) > timedelta(seconds=300)]`
with `cutoff = now - (max_history + buffer_window)`. -/
def prune (now : Int) (merged : List Interval) : List Interval :=
  merged.filter fun entry =>
    decide (now - (max_history + buffer_window) < entry.stop ∨
            300 < entry.stop - entry.start)

/-- The clipping loop of `_safe_refresh`: entries with `end < oldest` are
skipped, the rest are drawn as `axvspan(max(start, oldest), end)`, where
`oldest = now - seconds(history)`. -/
def window_view (now lookback : Int) : List Interval → List Interval
  | [] => []
  | entry :: rest =>
    if entry.stop < now - lookback then
      window_view now lookback rest
    else
      ⟨max entry.start (now - lookback), entry.stop, entry.status⟩ ::
        window_view now lookback rest

/-- The zero-width sample appended by `_refresh`:
`{'start': now, 'end': now, 'status': int(online)}`. -/
def sampleOf (t : Int) (online : Bool) : Interval := ⟨t, t, online⟩

/-- The mutable state of `MainWindow` relevant to the store: `check_data`
(the sample list) and `data` (the merged-and-pruned list).  `data` is
`none` until the first `_refresh` assigns it. -/
structure StoreState where
  check_data : List Interval
  data : Option (List Interval)
deriving DecidableEq

/-- One `_refresh` cycle.  `t` is the sample timestamp, `online` the probe
result, `nowP` the (second) `datetime.now()` used for the prune cutoff.
Because `merged[0]` aliases `check_data[0]`, the in-place updates
`last['end'] = seg['end']` leave `check_data[0]['end']` equal to the final
`end` of the first merged segment; no other entry of `check_data` is a
target of the mutation. -/
def refresh (st : StoreState) (t : Int) (online : Bool) (nowP : Int) : StoreState :=
  let cd := st.check_data ++ [sampleOf t online]
  let merged := merge cd
  let cd' := match cd, merged with
             | h :: rest, m :: _ => { h with stop := m.stop } :: rest
             | _, _ => cd
  { check_data := cd', data := some (prune nowP merged) }

/-- One iteration of the check loop: the sample time, the probe result, and
the time used for the prune cutoff. -/
structure Step where
  time : Int
  online : Bool
  now : Int
deriving DecidableEq

/-- The store after startup (`check_data = load()`, `data` unassigned)
followed by one `_refresh` per step. -/
def runCycles (loaded : List Interval) (steps : List Step) : StoreState :=
  steps.foldl (fun st s => refresh st s.time s.online s.now) ⟨loaded, none⟩

/-- Helper for reasoning about the merge pass: the effect, on an
already-merged list, of merging in one further segment — only the final
segment of the list can absorb it. -/
def mergeAppend : List Interval → Interval → List Interval
  | [], y => [y]
  | [a], y =>
    if y.status = a.status ∧ y.start - a.stop ≤ MAX_GAP then
      [{ a with stop := y.stop }]
    else [a, y]
  | a :: b :: r, y => a :: mergeAppend (b :: r) y

/-- `check_data` with its first entry shrunk back to the zero-width sample
it was appended as (undoing the in-place extension of its `end`). -/
def resetHead : List Interval → List Interval
  | [] => []
  | h :: r => ⟨h.start, h.start, h.status⟩ :: r

/-- Invariant of `check_data` along a monotone run started from an empty
store: every entry but the first is a zero-width sample, starts are
non-decreasing, and the in-place extension of the first entry does not
change the outcome of the merge pass. -/
def GoodCD (cd : List Interval) : Prop :=
  (∀ x ∈ cd.tail, x.stop = x.start) ∧
  List.Pairwise (fun a b => a.start ≤ b.start) cd ∧
  merge (resetHead cd) = merge cd

/-- A monotone probe stream: 10 online samples 35 s apart (merging into an
interval of length 315 s > 300 s), one offline sample, 10 more online
samples 35 s apart, then one online sample after a long pause, 7 days and
more after the offline sample. -/
def pruneBreaksMergeSteps : List Step :=
  [⟨0, true, 0⟩, ⟨35, true, 35⟩, ⟨70, true, 70⟩, ⟨105, true, 105⟩,
   ⟨140, true, 140⟩, ⟨175, true, 175⟩, ⟨210, true, 210⟩, ⟨245, true, 245⟩,
   ⟨280, true, 280⟩, ⟨315, true, 315⟩,
   ⟨325, false, 325⟩,
   ⟨335, true, 335⟩, ⟨370, true, 370⟩, ⟨405, true, 405⟩, ⟨440, true, 440⟩,
   ⟨475, true, 475⟩, ⟨510, true, 510⟩, ⟨545, true, 545⟩, ⟨580, true, 580⟩,
   ⟨615, true, 615⟩, ⟨650, true, 650⟩,
   ⟨605425, true, 605425⟩]

theorem mergeLoop_nil (last : Interval) : mergeLoop last [] = [last] := rfl

theorem mergeLoop_cons (last seg : Interval) (rest : List Interval) :
    mergeLoop last (seg :: rest)
      = if seg.status = last.status ∧ seg.start - last.stop ≤ MAX_GAP then
          mergeLoop { last with stop := seg.stop } rest
        else last :: mergeLoop seg rest := rfl

theorem mergeLoop_ne_nil (rest : List Interval) (last : Interval) :
    mergeLoop last rest ≠ [] := by
  induction rest generalizing last with
  | nil => simp [mergeLoop]
  | cons seg r ih =>
    simp only [mergeLoop]
    split
    · exact ih _
    · simp

theorem mergeLoop_head (rest : List Interval) (last m : Interval) (tl : List Interval)
    (h : mergeLoop last rest = m :: tl) :
    m.start = last.start ∧ m.status = last.status ∧
      (m.stop = last.stop ∨ ∃ x ∈ rest, m.stop = x.stop) := by
  induction rest generalizing last with
  | nil =>
    simp only [mergeLoop] at h
    injection h with h1 _
    subst h1
    exact ⟨rfl, rfl, Or.inl rfl⟩
  | cons seg r ih =>
    simp only [mergeLoop] at h
    split at h
    · obtain ⟨h1, h2, h3⟩ := ih _ h
      refine ⟨h1, h2, ?_⟩
      rcases h3 with h3 | ⟨x, hx, h3⟩
      · exact Or.inr ⟨seg, by simp, h3⟩
      · exact Or.inr ⟨x, by simp [hx], h3⟩
    · injection h with h1 _
      subst h1
      exact ⟨rfl, rfl, Or.inl rfl⟩

theorem mergeLoop_chain' (rest : List Interval) (last : Interval) :
    List.Chain' (fun a b => ¬(b.status = a.status ∧ b.start - a.stop ≤ MAX_GAP))
      (mergeLoop last rest) := by
  induction rest generalizing last with
  | nil => simp [mergeLoop]
  | cons seg r ih =>
    simp only [mergeLoop]
    split
    · exact ih _
    · rename_i hc
      rcases hm : mergeLoop seg r with _ | ⟨m, tl⟩
      · exact absurd hm (mergeLoop_ne_nil r seg)
      · rw [List.chain'_cons]
        obtain ⟨h1, h2, _⟩ := mergeLoop_head r seg m tl hm
        refine ⟨fun hmc => hc ⟨?_, ?_⟩, ?_⟩
        · rw [← h2]; exact hmc.1
        · rw [← h1]; exact hmc.2
        · rw [← hm]; exact ih _

theorem mergeLoop_of_chain' (rest : List Interval) (last : Interval)
    (h : List.Chain' (fun a b => ¬(b.status = a.status ∧ b.start - a.stop ≤ MAX_GAP))
      (last :: rest)) :
    mergeLoop last rest = last :: rest := by
  induction rest generalizing last with
  | nil => simp [mergeLoop]
  | cons seg r ih =>
    rw [List.chain'_cons] at h
    simp only [mergeLoop]
    rw [if_neg h.1, ih seg h.2]

/-- C4: the merge pass of `_refresh` is idempotent: for every interval
sequence, merging the output of merge yields that output unchanged. -/
theorem merge_idempotent (xs : List Interval) : merge (merge xs) = merge xs := by
  cases xs with
  | nil => rfl
  | cons h rest =>
    show merge (mergeLoop h rest) = mergeLoop h rest
    rcases hm : mergeLoop h rest with _ | ⟨m, tl⟩
    · rfl
    · show mergeLoop m tl = m :: tl
      apply mergeLoop_of_chain'
      rw [← hm]
      exact mergeLoop_chain' rest h

/-- C1: two consecutive same-status zero-width samples at `t` and `t + 30`
(gap 30 s, at most the 35 s tolerance) merge into the single interval
`[t, t + 30]`; at `t` and `t + 40` (gap 40 s, above tolerance) they stay
two separate intervals. -/
theorem merge_gap_tolerance (t : Int) (s : Bool) :
    merge [⟨t, t, s⟩, ⟨t + 30, t + 30, s⟩] = [⟨t, t + 30, s⟩] ∧
    merge [⟨t, t, s⟩, ⟨t + 40, t + 40, s⟩]
      = [⟨t, t, s⟩, ⟨t + 40, t + 40, s⟩] := by
  constructor
  · show mergeLoop ⟨t, t, s⟩ [⟨t + 30, t + 30, s⟩] = [⟨t, t + 30, s⟩]
    rw [mergeLoop_cons]
    split
    · rfl
    · rename_i hc
      exact absurd ⟨rfl, show t + 30 - t ≤ 35 by omega⟩ hc
  · show mergeLoop ⟨t, t, s⟩ [⟨t + 40, t + 40, s⟩] = [⟨t, t, s⟩, ⟨t + 40, t + 40, s⟩]
    rw [mergeLoop_cons]
    split
    · rename_i hc
      exact absurd (show t + 40 - t ≤ 35 from hc.2) (by omega)
    · rfl

/-- C5: a status change always starts a new segment, whatever the gap: a
segment whose status differs from the current merged segment is never
absorbed, neither at the head of the sequence nor anywhere inside the merge
loop. -/
theorem status_change_splits (a b : Interval) (rest : List Interval)
    (h : b.status ≠ a.status) :
    mergeLoop a (b :: rest) = a :: mergeLoop b rest ∧
    merge (a :: b :: rest) = a :: merge (b :: rest) := by
  have hstep : mergeLoop a (b :: rest) = a :: mergeLoop b rest := by
    rw [mergeLoop_cons]
    split
    · rename_i hc
      exact absurd hc.1 h
    · rfl
  exact ⟨hstep, hstep⟩

/-- C5 witness: an online sample immediately followed by an offline sample
does not merge. -/
theorem status_change_splits_witness :
    merge [⟨0, 0, true⟩, ⟨1, 1, false⟩] = ⟨0, 0, true⟩ :: merge [⟨1, 1, false⟩] :=
  (status_change_splits ⟨0, 0, true⟩ ⟨1, 1, false⟩ [] (by decide)).2

/-- C2: `prune` retains an entry exactly when `entry.end > now - (7 days + 300 s)`
or `entry.end - entry.start > 300 s`; an interval of duration 400 s that
ended 10 days before `now` is retained, one of duration 10 s that ended
10 days before `now` is dropped. -/
theorem prune_characterization (now : Int) (s : Bool) :
    (∀ (merged : List Interval) (entry : Interval),
        entry ∈ prune now merged ↔
          entry ∈ merged ∧
            (now - (7 * 86400 + 300) < entry.stop ∨
             300 < entry.stop - entry.start)) ∧
    prune now [⟨now - 864000 - 400, now - 864000, s⟩]
      = [⟨now - 864000 - 400, now - 864000, s⟩] ∧
    prune now [⟨now - 864000 - 10, now - 864000, s⟩] = [] := by
  refine ⟨?_, ?_, ?_⟩
  · intro merged entry
    simp [prune, List.mem_filter, max_history, buffer_window]
  · simp only [prune, List.filter_cons, List.filter_nil, decide_eq_true_eq,
      max_history, buffer_window]
    split
    · rfl
    · rename_i hc
      exact absurd (Or.inr (by omega)) hc
  · simp only [prune, List.filter_cons, List.filter_nil, decide_eq_true_eq,
      max_history, buffer_window]
    split
    · rename_i hc
      exfalso
      omega
    · rfl

/-- C7 counterexample: an interval of duration exactly 300 s whose end is
before the retention cutoff is dropped by `prune`, not retained. -/
theorem prune_duration_300_dropped : prune 1000000 [⟨0, 300, true⟩] = [] := by
  decide

/-- C7 amended: `prune` retains every interval of duration strictly greater
than 300 s, wherever its end lies relative to the cutoff. -/
theorem prune_retains_significant (now : Int) (merged : List Interval)
    (entry : Interval) (hmem : entry ∈ merged)
    (hdur : 300 < entry.stop - entry.start) :
    entry ∈ prune now merged := by
  simp [prune, List.mem_filter]
  exact ⟨hmem, Or.inr hdur⟩

/-- C7 witness: a 400 s interval far before the cutoff survives `prune`. -/
theorem prune_retains_significant_witness :
    (⟨0, 400, true⟩ : Interval) ∈ prune 1000000 [⟨0, 400, true⟩] :=
  prune_retains_significant 1000000 [⟨0, 400, true⟩] ⟨0, 400, true⟩
    (by decide) (by decide)

/-- C6 counterexample: the display loop copies `entry.end` through without
clipping it to `now`, so a stored interval ending after `now` is returned
with `end > now`. -/
theorem window_view_unclipped_end :
    window_view 50 60 [⟨0, 100, true⟩] = [⟨0, 100, true⟩] ∧ (50 : Int) < 100 := by
  decide

/-- C6 amended: the display loop yields, for each stored interval with
`end >= oldest`, the interval `{max(start, oldest), end, status}` and skips
the others; every returned start is at least `oldest`, and the returned
ends stay at most `now` provided every stored end is at most `now`. -/
theorem window_view_spec (now lookback : Int) (data : List Interval) :
    window_view now lookback data
      = (data.filter fun e => decide (now - lookback ≤ e.stop)).map
          (fun e => ⟨max e.start (now - lookback), e.stop, e.status⟩) ∧
    (∀ e ∈ window_view now lookback data, now - lookback ≤ e.start) ∧
    ((∀ e ∈ data, e.stop ≤ now) →
      ∀ e ∈ window_view now lookback data, e.stop ≤ now) := by
  have hrep : ∀ l : List Interval,
      window_view now lookback l
        = (l.filter fun e => decide (now - lookback ≤ e.stop)).map
            (fun e => ⟨max e.start (now - lookback), e.stop, e.status⟩) := by
    intro l
    induction l with
    | nil => rfl
    | cons x r ih =>
      simp only [window_view, List.filter_cons, decide_eq_true_eq]
      by_cases hx : x.stop < now - lookback
      · rw [if_pos hx, if_neg (not_le.mpr hx), ih]
      · rw [if_neg hx, if_pos (not_lt.mp hx), List.map_cons, ih]
  refine ⟨hrep data, ?_, ?_⟩
  · intro e he
    rw [hrep data] at he
    simp only [List.mem_map, List.mem_filter] at he
    obtain ⟨x, _, rfl⟩ := he
    exact le_max_right _ _
  · intro hall e he
    rw [hrep data] at he
    simp only [List.mem_map, List.mem_filter] at he
    obtain ⟨x, ⟨hxd, _⟩, rfl⟩ := he
    exact hall x hxd

/-- C6 witness: on a stored interval ending at `8 ≤ now = 10`, the clipped
result respects both bounds. -/
theorem window_view_spec_witness :
    (10 : Int) - 7 ≤ (⟨3, 8, true⟩ : Interval).start ∧
      (⟨3, 8, true⟩ : Interval).stop ≤ 10 :=
  ⟨(window_view_spec 10 7 [⟨2, 8, true⟩]).2.1 ⟨3, 8, true⟩ (by decide),
   (window_view_spec 10 7 [⟨2, 8, true⟩]).2.2 (by decide) ⟨3, 8, true⟩ (by decide)⟩

/-- C8 counterexample: a sample with timestamp 50, older than the end (100)
of the last stored interval, is appended and kept verbatim by `_refresh` —
no rejection, correction or error. -/
theorem non_monotonic_accepted :
    (refresh ⟨[⟨100, 100, true⟩], none⟩ 50 false 50).check_data
        = [⟨100, 100, true⟩, ⟨50, 50, false⟩] ∧
    (refresh ⟨[⟨100, 100, true⟩], none⟩ 50 false 50).data
        = some [⟨100, 100, true⟩, ⟨50, 50, false⟩] := by
  decide

theorem refresh_eq (st : StoreState) (t : Int) (s : Bool) (nowP : Int) :
    ∃ h rest m tl,
      st.check_data ++ [sampleOf t s] = h :: rest ∧
      mergeLoop h rest = m :: tl ∧
      m.start = h.start ∧ m.status = h.status ∧
      refresh st t s nowP = ⟨m :: rest, some (prune nowP (m :: tl))⟩ := by
  obtain ⟨h, rest, hcd⟩ : ∃ h rest, st.check_data ++ [sampleOf t s] = h :: rest := by
    cases st.check_data with
    | nil => exact ⟨sampleOf t s, [], rfl⟩
    | cons a l => exact ⟨a, l ++ [sampleOf t s], rfl⟩
  rcases hm : mergeLoop h rest with _ | ⟨m, tl⟩
  · exact absurd hm (mergeLoop_ne_nil rest h)
  · obtain ⟨h1, h2, _⟩ := mergeLoop_head rest h m tl hm
    refine ⟨h, rest, m, tl, hcd, hm, h1, h2, ?_⟩
    have hmt : ({ h with stop := m.stop } : Interval) = m := by
      rw [← h1, ← h2]
    have hm' : merge (st.check_data ++ [sampleOf t s]) = m :: tl := by
      rw [hcd]; exact hm
    simp only [refresh]
    rw [hm', hcd]
    show StoreState.mk ({ h with stop := m.stop } :: rest)
        (some (prune nowP (m :: tl))) = _
    rw [hmt]

theorem refresh_check_data_shape (st : StoreState) (t : Int) (s : Bool) (nowP : Int) :
    (refresh st t s nowP).check_data.tail = (st.check_data ++ [sampleOf t s]).tail ∧
    (refresh st t s nowP).check_data.map (fun iv => (iv.start, iv.status))
      = (st.check_data ++ [sampleOf t s]).map (fun iv => (iv.start, iv.status)) ∧
    (refresh st t s nowP).check_data ≠ [] := by
  obtain ⟨h, rest, m, tl, hcd, hm, h1, h2, heq⟩ := refresh_eq st t s nowP
  rw [heq, hcd]
  refine ⟨rfl, ?_, by simp⟩
  show (m :: rest).map _ = (h :: rest).map _
  rw [List.map_cons, List.map_cons, h1, h2]

theorem foldl_check_data (steps : List Step) :
    ∀ st : StoreState,
      ((steps.foldl (fun acc s => refresh acc s.time s.online s.now) st).check_data).tail
          = (st.check_data ++ steps.map fun s => sampleOf s.time s.online).tail ∧
      ((steps.foldl (fun acc s => refresh acc s.time s.online s.now) st).check_data).map
            (fun iv => (iv.start, iv.status))
          = (st.check_data ++ steps.map fun s => sampleOf s.time s.online).map
            (fun iv => (iv.start, iv.status)) := by
  have tail_append : ∀ l1 l2 : List Interval, l1 ≠ [] → (l1 ++ l2).tail = l1.tail ++ l2 := by
    intro l1 l2 hl
    cases l1 with
    | nil => exact absurd rfl hl
    | cons a l => rfl
  induction steps with
  | nil => intro st; simp
  | cons s rest ih =>
    intro st
    obtain ⟨ht, hmap, hne⟩ := refresh_check_data_shape st s.time s.online s.now
    obtain ⟨iht, ihmap⟩ := ih (refresh st s.time s.online s.now)
    constructor
    · calc ((s :: rest).foldl (fun acc s => refresh acc s.time s.online s.now) st).check_data.tail
          = ((refresh st s.time s.online s.now).check_data
              ++ rest.map fun s => sampleOf s.time s.online).tail := iht
        _ = (refresh st s.time s.online s.now).check_data.tail
              ++ rest.map (fun s => sampleOf s.time s.online) := tail_append _ _ hne
        _ = (st.check_data ++ [sampleOf s.time s.online]).tail
              ++ rest.map (fun s => sampleOf s.time s.online) := by rw [ht]
        _ = ((st.check_data ++ [sampleOf s.time s.online])
              ++ rest.map fun s => sampleOf s.time s.online).tail :=
            (tail_append _ _ (by simp)).symm
        _ = (st.check_data ++ (s :: rest).map fun s => sampleOf s.time s.online).tail := by
            simp [List.append_assoc]
    · calc (((s :: rest).foldl (fun acc s => refresh acc s.time s.online s.now) st).check_data).map
            (fun iv => (iv.start, iv.status))
          = (((refresh st s.time s.online s.now).check_data
              ++ rest.map fun s => sampleOf s.time s.online)).map
              (fun iv => (iv.start, iv.status)) := ihmap
        _ = ((refresh st s.time s.online s.now).check_data).map (fun iv => (iv.start, iv.status))
              ++ (rest.map fun s => sampleOf s.time s.online).map
                (fun iv => (iv.start, iv.status)) := List.map_append _ _ _
        _ = (st.check_data ++ [sampleOf s.time s.online]).map (fun iv => (iv.start, iv.status))
              ++ (rest.map fun s => sampleOf s.time s.online).map
                (fun iv => (iv.start, iv.status)) := by rw [hmap]
        _ = (st.check_data ++ (s :: rest).map fun s => sampleOf s.time s.online).map
              (fun iv => (iv.start, iv.status)) := by
            simp [List.map_append, List.append_assoc]

/-- C10: across any run, `check_data` keeps one entry per appended sample on
top of the loaded entries (its length is `loaded + number of cycles`), all
entries except the first are exactly the appended samples, every entry keeps
its original `start` and `status` (so the only possible in-place change is
the first entry's `end`), while the merged-and-pruned sequence is stored in
the separate field `data`. -/
theorem check_data_never_replaced (loaded : List Interval) (steps : List Step) :
    (runCycles loaded steps).check_data.length = loaded.length + steps.length ∧
    (runCycles loaded steps).check_data.tail
        = (loaded ++ steps.map fun s => sampleOf s.time s.online).tail ∧
    (runCycles loaded steps).check_data.map (fun iv => (iv.start, iv.status))
        = (loaded ++ steps.map fun s => sampleOf s.time s.online).map
            (fun iv => (iv.start, iv.status)) ∧
    ∀ (st : StoreState) (t : Int) (s : Bool) (nowP : Int),
      (refresh st t s nowP).data
        = some (prune nowP (merge (st.check_data ++ [sampleOf t s]))) := by
  obtain ⟨ht, hmap⟩ := foldl_check_data steps ⟨loaded, none⟩
  refine ⟨?_, ht, hmap, ?_⟩
  · have hlen := congrArg List.length hmap
    simpa using hlen
  · intro st t s nowP
    obtain ⟨h, rest, m, tl, hcd, hm, h1, h2, heq⟩ := refresh_eq st t s nowP
    have hm' : merge (st.check_data ++ [sampleOf t s]) = m :: tl := by
      rw [hcd]; exact hm
    rw [heq, hm']

/-- C9: before the first completed probe cycle `self.data` is unassigned
(`closeEvent` would read a missing attribute and the interval flush would
not happen); each `_refresh` is what assigns it. -/
theorem shutdown_flush_unassigned :
    (runCycles [] []).data = none ∧
    (∀ loaded : List Interval, (runCycles loaded []).data = none) ∧
    ∀ (st : StoreState) (t : Int) (s : Bool) (nowP : Int),
      ((refresh st t s nowP).data).isSome = true := by
  refine ⟨rfl, fun _ => rfl, fun st t s nowP => ?_⟩
  obtain ⟨h, rest, m, tl, hcd, hm, h1, h2, heq⟩ := refresh_eq st t s nowP
  rw [heq]
  rfl

theorem refresh_map_start (st : StoreState) (t : Int) (s : Bool) (nowP : Int) :
    (refresh st t s nowP).check_data.map Interval.start
        = st.check_data.map Interval.start ++ [t] := by
  obtain ⟨h, rest, m, tl, hcd, hm, h1, h2, heq⟩ := refresh_eq st t s nowP
  rw [heq]
  show (m :: rest).map Interval.start = st.check_data.map Interval.start ++ [t]
  have hbase : (h :: rest).map Interval.start
      = st.check_data.map Interval.start ++ [t] := by
    rw [← hcd]
    simp [sampleOf]
  rw [List.map_cons, h1, ← List.map_cons, hbase]

/-- C8 amended: `_refresh` performs no monotonicity check: any sample, with
any timestamp, is appended at the tail of `check_data` unchanged and the
cycle completes normally — nothing is rejected, corrected or reported. -/
theorem append_sample_unvalidated (st : StoreState) (t : Int) (s : Bool) (nowP : Int) :
    (refresh st t s nowP).check_data.map Interval.start
        = st.check_data.map Interval.start ++ [t] ∧
    (refresh st t s nowP).check_data.length = st.check_data.length + 1 ∧
    ((refresh st t s nowP).data).isSome = true := by
  refine ⟨refresh_map_start st t s nowP, ?_, ?_⟩
  · have hlen := congrArg List.length (refresh_map_start st t s nowP)
    simpa using hlen
  · obtain ⟨h, rest, m, tl, hcd, hm, h1, h2, heq⟩ := refresh_eq st t s nowP
    rw [heq]
    rfl

theorem mergeLoop_append (rest : List Interval) (last y : Interval) :
    mergeLoop last (rest ++ [y]) = mergeAppend (mergeLoop last rest) y := by
  induction rest generalizing last with
  | nil => rfl
  | cons seg r ih =>
    show mergeLoop last (seg :: (r ++ [y])) = mergeAppend (mergeLoop last (seg :: r)) y
    rw [mergeLoop_cons, mergeLoop_cons]
    by_cases hc : seg.status = last.status ∧ seg.start - last.stop ≤ MAX_GAP
    · rw [if_pos hc, if_pos hc]
      exact ih _
    · rw [if_neg hc, if_neg hc, ih seg]
      rcases hm : mergeLoop seg r with _ | ⟨b, tl⟩
      · exact absurd hm (mergeLoop_ne_nil r seg)
      · rfl

theorem merge_append (xs : List Interval) (y : Interval) :
    merge (xs ++ [y]) = mergeAppend (merge xs) y := by
  cases xs with
  | nil => rfl
  | cons h r => exact mergeLoop_append r h y

theorem mergeLoop_remerge (h : Interval) (rest : List Interval)
    (hzw : ∀ x ∈ rest, x.stop = x.start)
    (hs : List.Pairwise (fun a b => a.start ≤ b.start) rest)
    (m : Interval) (tl : List Interval) (hm : mergeLoop h rest = m :: tl) :
    mergeLoop m rest = m :: tl := by
  cases rest with
  | nil =>
    rw [mergeLoop_nil] at hm
    injection hm with h1 h2
    rw [mergeLoop_nil, ← h2]
  | cons seg r =>
    rw [mergeLoop_cons] at hm
    by_cases hc : seg.status = h.status ∧ seg.start - h.stop ≤ MAX_GAP
    · rw [if_pos hc] at hm
      obtain ⟨h1, h2, h3⟩ := mergeLoop_head r _ m tl hm
      have hms : seg.status = m.status := by rw [h2]; exact hc.1
      have hgap : seg.start - m.stop ≤ MAX_GAP := by
        rcases h3 with h3 | ⟨x, hx, h3⟩
        · rw [h3]
          show seg.start - seg.stop ≤ MAX_GAP
          rw [hzw seg (by simp)]
          simp only [MAX_GAP]
          omega
        · rw [h3, hzw x (by simp [hx])]
          have hsx : seg.start ≤ x.start := (List.pairwise_cons.mp hs).1 x hx
          simp only [MAX_GAP]
          omega
      rw [mergeLoop_cons, if_pos ⟨hms, hgap⟩]
      have heq2 : ({ m with stop := seg.stop } : Interval)
          = { h with stop := seg.stop } := by
        show (⟨m.start, seg.stop, m.status⟩ : Interval) = ⟨h.start, seg.stop, h.status⟩
        rw [h1, h2]
      rw [heq2]
      exact hm
    · rw [if_neg hc] at hm
      injection hm with h1 h2
      subst h1
      rw [mergeLoop_cons, if_neg hc, h2]

theorem mergeLoop_start_mem (rest : List Interval) (last y : Interval)
    (hy : y ∈ mergeLoop last rest) :
    y.start = last.start ∨ ∃ x ∈ rest, y.start = x.start := by
  induction rest generalizing last with
  | nil =>
    rw [mergeLoop_nil, List.mem_singleton] at hy
    exact Or.inl (by rw [hy])
  | cons seg r ih =>
    rw [mergeLoop_cons] at hy
    split at hy
    · rcases ih _ hy with h | ⟨x, hx, h⟩
      · exact Or.inl h
      · exact Or.inr ⟨x, by simp [hx], h⟩
    · rcases List.mem_cons.mp hy with rfl | hy
      · exact Or.inl rfl
      · rcases ih seg hy with h | ⟨x, hx, h⟩
        · exact Or.inr ⟨seg, by simp, h⟩
        · exact Or.inr ⟨x, by simp [hx], h⟩

theorem mergeLoop_wf (rest : List Interval) : ∀ last : Interval,
    last.start ≤ last.stop →
    (∀ x ∈ rest, last.stop ≤ x.start) →
    (∀ x ∈ rest, x.start ≤ x.stop) →
    List.Pairwise (fun a b => a.stop ≤ b.start) rest →
    (∀ y ∈ mergeLoop last rest, y.start ≤ y.stop) ∧
      List.Pairwise (fun a b => a.stop ≤ b.start) (mergeLoop last rest) := by
  induction rest with
  | nil =>
    intro last h0 _ _ _
    constructor
    · intro y hy
      rw [mergeLoop_nil, List.mem_singleton] at hy
      rw [hy]
      exact h0
    · rw [mergeLoop_nil]
      simp
  | cons seg r ih =>
    intro last h0 h1 h2 h3
    have hls : last.stop ≤ seg.start := h1 seg (by simp)
    have hss : seg.start ≤ seg.stop := h2 seg (by simp)
    obtain ⟨hsr, hpr⟩ := List.pairwise_cons.mp h3
    rw [mergeLoop_cons]
    by_cases hc : seg.status = last.status ∧ seg.start - last.stop ≤ MAX_GAP
    · rw [if_pos hc]
      exact ih { last with stop := seg.stop }
        (show last.start ≤ seg.stop by omega)
        (fun x hx => hsr x hx)
        (fun x hx => h2 x (by simp [hx]))
        hpr
    · rw [if_neg hc]
      obtain ⟨ihwf, ihpw⟩ := ih seg hss (fun x hx => hsr x hx)
        (fun x hx => h2 x (by simp [hx])) hpr
      constructor
      · intro y hy
        rcases List.mem_cons.mp hy with rfl | hy
        · exact h0
        · exact ihwf y hy
      · rw [List.pairwise_cons]
        refine ⟨?_, ihpw⟩
        intro y hy
        rcases mergeLoop_start_mem r seg y hy with h' | ⟨x, hx, h'⟩
        · rw [h']
          exact hls
        · rw [h']
          exact h1 x (by simp [hx])

theorem merge_wf (l : List Interval)
    (h1 : ∀ x ∈ l, x.start ≤ x.stop)
    (h2 : List.Pairwise (fun a b => a.stop ≤ b.start) l) :
    (∀ y ∈ merge l, y.start ≤ y.stop) ∧
      List.Pairwise (fun a b => a.stop ≤ b.start) (merge l) := by
  cases l with
  | nil => simp [merge]
  | cons h r =>
    obtain ⟨hhr, hpr⟩ := List.pairwise_cons.mp h2
    exact mergeLoop_wf r h (h1 h (by simp)) hhr (fun x hx => h1 x (by simp [hx])) hpr

theorem prune_wf (now : Int) (l : List Interval)
    (h1 : ∀ y ∈ l, y.start ≤ y.stop)
    (h2 : List.Pairwise (fun a b => a.stop ≤ b.start) l) :
    (∀ y ∈ prune now l, y.start ≤ y.stop) ∧
      List.Pairwise (fun a b => a.stop ≤ b.start) (prune now l) := by
  have hsub : (prune now l).Sublist l := List.filter_sublist l
  exact ⟨fun y hy => h1 y (hsub.subset hy), h2.sublist hsub⟩

theorem goodCD_append (cd : List Interval) (t : Int) (s : Bool)
    (hg : GoodCD cd) (ht : ∀ x ∈ cd, x.start ≤ t) :
    GoodCD (cd ++ [sampleOf t s]) := by
  obtain ⟨hzw, hsorted, hmerge⟩ := hg
  refine ⟨?_, ?_, ?_⟩
  · cases cd with
    | nil => simp [sampleOf]
    | cons a l =>
      intro x hx
      simp only [List.cons_append, List.tail_cons] at hx
      rcases List.mem_append.mp hx with hx | hx
      · exact hzw x hx
      · rw [List.mem_singleton.mp hx]
        rfl
  · rw [List.pairwise_append]
    refine ⟨hsorted, by simp, ?_⟩
    intro a ha b hb
    rw [List.mem_singleton.mp hb]
    exact ht a ha
  · cases cd with
    | nil => rfl
    | cons a l =>
      have hr : resetHead ((a :: l) ++ [sampleOf t s])
          = resetHead (a :: l) ++ [sampleOf t s] := rfl
      rw [hr, merge_append, merge_append, hmerge]

theorem goodCD_refresh (st : StoreState) (t : Int) (s : Bool) (nowP : Int)
    (hg : GoodCD st.check_data) (ht : ∀ x ∈ st.check_data, x.start ≤ t) :
    GoodCD (refresh st t s nowP).check_data ∧
    ∀ l, (refresh st t s nowP).data = some l →
      (∀ y ∈ l, y.start ≤ y.stop) ∧
        List.Pairwise (fun a b => a.stop ≤ b.start) l := by
  obtain ⟨h, rest, m, tl, hcd, hm, h1, h2, heq⟩ := refresh_eq st t s nowP
  have hg2 : GoodCD (st.check_data ++ [sampleOf t s]) := goodCD_append _ t s hg ht
  rw [hcd] at hg2
  obtain ⟨hzw2, hsorted2, hmerge2⟩ := hg2
  have hzw3 : ∀ x ∈ rest, x.stop = x.start := fun x hx => hzw2 x hx
  have hsorted3 : List.Pairwise (fun a b => a.start ≤ b.start) rest :=
    (List.pairwise_cons.mp hsorted2).2
  constructor
  · rw [heq]
    show GoodCD (m :: rest)
    refine ⟨fun x hx => hzw2 x hx, ?_, ?_⟩
    · rw [List.pairwise_cons] at hsorted2 ⊢
      refine ⟨fun b hb => ?_, hsorted2.2⟩
      rw [h1]
      exact hsorted2.1 b hb
    · have hreset : resetHead (m :: rest) = resetHead (h :: rest) := by
        show (⟨m.start, m.start, m.status⟩ : Interval) :: rest
            = ⟨h.start, h.start, h.status⟩ :: rest
        rw [h1, h2]
      have hmergem : merge (m :: rest) = m :: tl := by
        show mergeLoop m rest = m :: tl
        exact mergeLoop_remerge h rest hzw3 hsorted3 m tl hm
      rw [hreset, hmerge2, hmergem]
      exact hm
  · intro l hl
    rw [heq] at hl
    have hl' : prune nowP (m :: tl) = l := Option.some.inj hl
    subst hl'
    have hwfin1 : ∀ x ∈ resetHead (h :: rest), x.start ≤ x.stop := by
      intro x hx
      rcases List.mem_cons.mp hx with rfl | hx
      · exact le_refl _
      · rw [hzw2 x hx]
    have hwfin2 : List.Pairwise (fun a b => a.stop ≤ b.start) (resetHead (h :: rest)) := by
      show List.Pairwise (fun a b => a.stop ≤ b.start)
        ((⟨h.start, h.start, h.status⟩ : Interval) :: rest)
      rw [List.pairwise_cons]
      constructor
      · intro b hb
        show h.start ≤ b.start
        exact (List.pairwise_cons.mp hsorted2).1 b hb
      · refine List.Pairwise.imp_of_mem ?_ hsorted3
        intro a b ha hb hab
        rw [hzw2 a ha]
        exact hab
    obtain ⟨hwf1, hwf2⟩ := merge_wf (resetHead (h :: rest)) hwfin1 hwfin2
    have hout : merge (resetHead (h :: rest)) = m :: tl := by
      rw [hmerge2]
      exact hm
    rw [hout] at hwf1 hwf2
    exact prune_wf nowP (m :: tl) hwf1 hwf2

theorem runCycles_wf (steps : List Step) :
    ∀ st : StoreState,
      GoodCD st.check_data →
      (∀ x ∈ st.check_data, ∀ stp ∈ steps, x.start ≤ stp.time) →
      List.Pairwise (fun a b => a.time ≤ b.time) steps →
      (∀ l, st.data = some l →
        (∀ y ∈ l, y.start ≤ y.stop) ∧
          List.Pairwise (fun a b => a.stop ≤ b.start) l) →
      ∀ l, (steps.foldl (fun acc s => refresh acc s.time s.online s.now) st).data = some l →
        (∀ y ∈ l, y.start ≤ y.stop) ∧
          List.Pairwise (fun a b => a.stop ≤ b.start) l := by
  induction steps with
  | nil =>
    intro st _ _ _ hd
    exact hd
  | cons s rest ih =>
    intro st hg ht hp hd
    obtain ⟨hsr, hpr⟩ := List.pairwise_cons.mp hp
    have ht1 : ∀ x ∈ st.check_data, x.start ≤ s.time := fun x hx => ht x hx s (by simp)
    obtain ⟨hg', hd'⟩ := goodCD_refresh st s.time s.online s.now hg ht1
    have hmap := refresh_map_start st s.time s.online s.now
    have ht' : ∀ x ∈ (refresh st s.time s.online s.now).check_data,
        ∀ stp ∈ rest, x.start ≤ stp.time := by
      intro x hx stp hstp
      have hxs : x.start ∈ (refresh st s.time s.online s.now).check_data.map Interval.start :=
        List.mem_map_of_mem _ hx
      rw [hmap] at hxs
      rcases List.mem_append.mp hxs with hxs | hxs
      · obtain ⟨x', hx', hx'e⟩ := List.mem_map.mp hxs
        rw [← hx'e]
        exact ht x' hx' stp (by simp [hstp])
      · rw [List.mem_singleton.mp hxs]
        exact hsr stp hstp
    exact ih (refresh st s.time s.online s.now) hg' ht' hpr hd'

/-- C3 amended: on every monotone sample stream fed to an initially empty
store, the `data` sequence produced by each cycle has `start ≤ end`
throughout and its intervals are ordered by start and non-overlapping; the
merge output itself never contains an adjacent pair with equal status and
gap at most `MAX_GAP`, but the pruned `data` may (pruning can drop a short
opposite-status interval standing between two retained ones). -/
theorem cycle_invariants (steps : List Step)
    (hmono : List.Pairwise (fun a b => a.time ≤ b.time) steps) :
    (∀ l, (runCycles [] steps).data = some l →
      (∀ y ∈ l, y.start ≤ y.stop) ∧
      List.Pairwise (fun a b => a.start ≤ b.start ∧ a.stop ≤ b.start) l) ∧
    ∀ xs : List Interval,
      List.Chain' (fun a b => ¬(b.status = a.status ∧ b.start - a.stop ≤ MAX_GAP))
        (merge xs) := by
  constructor
  · intro l hl
    have hgood : GoodCD ([] : List Interval) := ⟨by simp, List.Pairwise.nil, rfl⟩
    obtain ⟨hwf1, hwf2⟩ := runCycles_wf steps ⟨[], none⟩ hgood (by simp) hmono
      (fun l' hl' => Option.noConfusion hl') l hl
    refine ⟨hwf1, ?_⟩
    refine List.Pairwise.imp_of_mem ?_ hwf2
    intro a b ha hb hab
    exact ⟨le_trans (hwf1 a ha) hab, hab⟩
  · intro xs
    cases xs with
    | nil => simp [merge]
    | cons h r => exact mergeLoop_chain' r h

/-- C3 witness: the two-cycle monotone stream with online samples at 0 and
30 produces `data = [[0, 30] online]`, which satisfies the invariants. -/
theorem cycle_invariants_witness :
    (∀ y ∈ [(⟨0, 30, true⟩ : Interval)], y.start ≤ y.stop) ∧
    List.Pairwise (fun a b : Interval => a.start ≤ b.start ∧ a.stop ≤ b.start)
      [(⟨0, 30, true⟩ : Interval)] :=
  (cycle_invariants [⟨0, true, 0⟩, ⟨30, true, 30⟩] (by decide)).1
    [⟨0, 30, true⟩] (by decide)

/-- C3 counterexample: on the monotone stream `pruneBreaksMergeSteps`, the
cycle output keeps the online intervals `[0, 315]` and `[335, 650]` (both
longer than 300 s) but prunes the zero-width offline sample at 325 that
separated them, leaving two adjacent same-status intervals whose gap, 20 s,
is within `MAX_GAP` — the third claimed invariant fails. -/
theorem prune_breaks_merge_invariant :
    List.Pairwise (fun a b : Step => a.time ≤ b.time) pruneBreaksMergeSteps ∧
    (runCycles [] pruneBreaksMergeSteps).data
      = some [⟨0, 315, true⟩, ⟨335, 650, true⟩, ⟨605425, 605425, true⟩] ∧
    (⟨335, 650, true⟩ : Interval).status = (⟨0, 315, true⟩ : Interval).status ∧
    (⟨335, 650, true⟩ : Interval).start - (⟨0, 315, true⟩ : Interval).stop
      ≤ MAX_GAP := by
  decide

end PyConnectionMonitor
